import Mathlib

/-!
Verification of the traversal-order planner (`traverse_order.c`) and the
conditional variable-length traverse operator construction
(`op_cond_var_len_traverse.c`) of the RedisGraph repository.

The planner's loops over C arrays are embedded as structural recursions over
`List Expr`; in-place mutation of the caller's expression array becomes the
returned list.  Machine integers are modelled as `Nat`/`Int`, with the one
unsigned subtraction in `_penalty_arrangement` modelled explicitly modulo
`2^32`.
-/

namespace TraverseOrder

/-- An algebraic expression as the planner observes it: the opaque collaborator
of `algebraic_expression.h`, reduced to the getters the planner calls.
`eid` models pointer identity of the caller-owned expression object (the
planner permutes and mutates expressions but never creates or drops one). -/
structure Expr where
  source : String
  destination : String
  edge : Option String
  operandCount : Nat
  transposeCount : Nat
  transposed : Bool
  eid : Nat
deriving DecidableEq, Repr

/-- Modelled from the spec: `AlgebraicExpression_Transpose` lives in the
out-of-scope algebraic-expression module (`algebraic_expression.c` is not part
of the planner sources).  Per the spec's data model it "swaps source/destination
and toggles `is_transposed`"; the spec states nothing further, so the remaining
fields are left unchanged.  Object identity (`eid`) is preserved: the C call
mutates the same heap object. -/
def Expr.transpose (e : Expr) : Expr :=
  { e with source := e.destination, destination := e.source,
           transposed := !e.transposed }

/-- The query graph as the planner observes it: `QueryGraph_GetNodeByAlias`
followed by reading the node's `label` field.  `nodeLabel a = some l` means the
node at alias `a` carries label `l`; `none` means it is unlabeled.  (The C code
dereferences the node unconditionally, so every alias the planner looks up is
assumed to name a node.) -/
structure QueryGraph where
  nodeLabel : String → Option String

/-- Transpose penalty (`#define T 1`). -/
def T : Int := 1

/-- Label score (`#define L 2 * T`). -/
def L : Int := 2 * T

/-- Filter score (`#define F 4 * T`). -/
def F : Int := 4 * T

/-- Bound variable bonus (`#define B 8 * F`). -/
def B : Int := 8 * F

/-- `_swap`: swaps `exps[i]` with `exps[j]`.  Out-of-range indices leave the
list unchanged (the planner only ever swaps in-range cells). -/
def swapList {α : Type} (xs : List α) (i j : Nat) : List α :=
  match xs.get? i, xs.get? j with
  | some a, some b => (xs.set i b).set j a
  | _, _ => xs

/-- `_permute(set, l, r)`: Heap-style recursive swap.  At `l == r` the working
array is emitted (the C clones it); otherwise each index `i ∈ [l, r]` is
swapped into position `l` and the tail is permuted.  The C's swap-back restores
the working array, which the pure reading expresses by recursing on
`swapList set l i`.  The fixed upper index `r` is carried as the count
`remaining = r + 1 - l` of positions still to place, so the recursion is
structural: `remaining = 1` is the C's `l == r` emit case, and `remaining = 0`
(`l > r`, never reached from `_permutations`) is the C's empty loop. -/
def permute {α : Type} : (remaining : Nat) → List α → (l : Nat) → List (List α)
  | 0, _, _ => []
  | 1, set, _ => [set]
  | n + 2, set, l =>
    ((List.range' l (n + 2)).map
      (fun i => permute (n + 1) (swapList set l i) (l + 1))).flatten

/-- `_permutations`: all permutations of `exps`, in the production order of
`_permute(exps, 0, exps_count - 1, ...)` (so `remaining = exps_count`). -/
def permutations (exps : List Expr) : List (List Expr) :=
  permute exps.length exps 0

/-- The four-way endpoint comparison of `_valid_arrangement`'s inner loop:
`prev` shares an endpoint with `e` (all comparisons byte-exact, `RG_STRCMP`). -/
def sharesEndpoint (prev e : Expr) : Bool :=
  prev.source == e.source || prev.destination == e.source ||
  prev.source == e.destination || prev.destination == e.destination

/-- The outer loop of `_valid_arrangement`: every expression of `rest` must
share an endpoint with some expression before it (`prev` holds the already
scanned prefix; the C scans `j = i-1` down to `0`, an existence test). -/
def chainValidAux (prev : List Expr) : List Expr → Bool
  | [] => true
  | e :: rest => prev.any (fun p => sharesEndpoint p e) && chainValidAux (prev ++ [e]) rest

/-- `_valid_arrangement`: rejects an arrangement whose opener is a bare
labeled-endpoint edge (it must become a scan downstream), then checks the
chaining rule.  The C reads `arrangement[0]` unconditionally; callers always
pass a non-empty arrangement. -/
def valid_arrangement (arrangement : List Expr) (qg : QueryGraph) : Bool :=
  match arrangement with
  | [] => true
  | e :: rest =>
    if ((qg.nodeLabel e.source).isSome || (qg.nodeLabel e.destination).isSome) &&
       e.edge.isSome && e.operandCount == 1 then false
    else chainValidAux [e] rest

/-- The source-side resolution scan shared by `_penalty_arrangement` and
`_resolve_winning_sequence`: some previous expression's source or destination
equals `e`'s source. -/
def srcResolved (prev : List Expr) (e : Expr) : Bool :=
  prev.any (fun p => p.source == e.source || p.destination == e.source)

/-- C unsigned-int subtraction: `a - b` computed in `uint` arithmetic
(the `operand_count - transpose_count` term of `_penalty_arrangement`). -/
def usub32 (a b : Nat) : Nat := (a + 4294967296 - b) % 4294967296

/-- The `i ≥ 1` loop of `_penalty_arrangement`: a source-resolved expression
pays `transpose_count * T`, an unresolved one pays
`(operand_count - transpose_count) * T` in `uint` arithmetic. -/
def penalty_loop (prev : List Expr) : List Expr → Int
  | [] => 0
  | e :: rest =>
    (if srcResolved prev e then (e.transposeCount : Int) * T
     else (usub32 e.operandCount e.transposeCount : Int) * T) +
    penalty_loop (prev ++ [e]) rest

/-- `_penalty_arrangement`.  `maintainTranspose` is the
`Config_MAINTAIN_TRANSPOSE` flag read inside the C function, passed here as a
parameter.  The C reads `arrangement[0]` unconditionally; callers always pass a
non-empty arrangement. -/
def penalty_arrangement (arrangement : List Expr) (maintainTranspose : Bool) : Int :=
  if maintainTranspose then 0
  else
    match arrangement with
    | [] => 0
    | e :: rest => (e.transposeCount : Int) * T + penalty_loop [e] rest

/-- `_reward_expression`: bound endpoints (when a bound-variable set was
supplied), filtered endpoints, and a labeled source node are rewarded, each
scaled by `reward_factor`.  A labeled destination earns nothing here. -/
def reward_expression (exp : Expr) (qg : QueryGraph) (filtered_entities : List String)
    (bound_vars : Option (List String)) (reward_factor : Nat) : Int :=
  (match bound_vars with
   | some bv =>
     (if bv.contains exp.source then B * (reward_factor : Int) else 0) +
     (if bv.contains exp.destination then B * (reward_factor : Int) else 0)
   | none => 0) +
  (if filtered_entities.contains exp.source then F * (reward_factor : Int) else 0) +
  (if filtered_entities.contains exp.destination then F * (reward_factor : Int) else 0) +
  (if (qg.nodeLabel exp.source).isSome then L * (reward_factor : Int) else 0)

/-- The loop of `_reward_arrangement`: position `i` is rewarded with factor
`exp_count - i` (`n` is the full arrangement length, `i` the current index). -/
def reward_arrangement_from (qg : QueryGraph) (filtered_entities : List String)
    (bound_vars : Option (List String)) (n : Nat) : Nat → List Expr → Int
  | _, [] => 0
  | i, e :: rest =>
    reward_expression e qg filtered_entities bound_vars (n - i) +
    reward_arrangement_from qg filtered_entities bound_vars n (i + 1) rest

/-- `_reward_arrangement`. -/
def reward_arrangement (arrangement : List Expr) (qg : QueryGraph)
    (filtered_entities : List String) (bound_vars : Option (List String)) : Int :=
  reward_arrangement_from qg filtered_entities bound_vars arrangement.length 0 arrangement

/-- `_score_arrangement`: `score = reward - penalty`. -/
def score_arrangement (arrangement : List Expr) (qg : QueryGraph)
    (filtered_entities : List String) (bound_vars : Option (List String))
    (maintainTranspose : Bool) : Int :=
  reward_arrangement arrangement qg filtered_entities bound_vars -
    penalty_arrangement arrangement maintainTranspose

/-- The `i ≥ 1` loop of `_resolve_winning_sequence`: an expression whose source
no previous expression resolves is transposed in place, and later iterations
see the transposed form (`prev` accumulates the already-processed prefix). -/
def resolveAux (prev : List Expr) : List Expr → List Expr
  | [] => []
  | e :: rest =>
    if srcResolved prev e then e :: resolveAux (prev ++ [e]) rest
    else e.transpose :: resolveAux (prev ++ [e.transpose]) rest

/-- `_resolve_winning_sequence`. -/
def resolve_winning_sequence : List Expr → List Expr
  | [] => []
  | e :: rest => e :: resolveAux [e] rest

/-- The filter/label fallback of `_select_entry_point`: transpose exactly when
the destination's filter/label score strictly exceeds the source's. -/
def select_entry_heuristic (qg : QueryGraph) (exp : Expr)
    (filtered_entities : List String) : Expr :=
  let src_score : Int :=
    (if filtered_entities.contains exp.source then F else 0) +
    (if (qg.nodeLabel exp.source).isSome then L else 0)
  let dest_score : Int :=
    (if filtered_entities.contains exp.destination then F else 0) +
    (if (qg.nodeLabel exp.destination).isSome then L else 0)
  if src_score < dest_score then exp.transpose else exp

/-- `_select_entry_point`: a single-operand self-loop is left alone; a bound
source keeps the expression, a bound destination transposes it; otherwise the
filter/label heuristic decides. -/
def select_entry_point (qg : QueryGraph) (exp : Expr)
    (filtered_entities : List String) (bound_vars : Option (List String)) : Expr :=
  if exp.operandCount == 1 && exp.source == exp.destination then exp
  else
    match bound_vars with
    | some bv =>
      if bv.contains exp.source then exp
      else if bv.contains exp.destination then exp.transpose
      else select_entry_heuristic qg exp filtered_entities
    | none => select_entry_heuristic qg exp filtered_entities

/-- The call `_select_entry_point(qg, exps + 0, ...)`: mutate position 0. -/
def apply_entry_point (qg : QueryGraph) (filtered_entities : List String)
    (bound_vars : Option (List String)) : List Expr → List Expr
  | [] => []
  | e :: rest => select_entry_point qg e filtered_entities bound_vars :: rest

/-- The max-score scan of `orderExpressions`: strict improvement only, so the
first arrangement reaching the maximum score wins. -/
def pickTopAux (score : List Expr → Int) (best : List Expr) (bestScore : Int) :
    List (List Expr) → List Expr
  | [] => best
  | a :: rest =>
    if bestScore < score a then pickTopAux score a (score a) rest
    else pickTopAux score best bestScore rest

/-- The scan starts with `top = valid[0]`, `max = INT_MIN`, and its first
iteration compares `INT_MIN < score(valid[0])` — always true for the bounded
scores the planner produces — so it amounts to starting from `valid[0]`'s own
score.  The C asserts the list is non-empty; `[]` is unreachable. -/
def pickTop (score : List Expr → Int) : List (List Expr) → List Expr
  | [] => []
  | a :: rest => pickTopAux score a (score a) rest

/-- `orderExpressions`, the exported planner entry point.  `filtered_entities`
stands for `FilterTree_CollectModified(filters)` (the filter tree is an opaque
collaborator) and `maintainTranspose` for the config flag read inside
`_penalty_arrangement`.  The C mutates `exps` in place; here the final array is
returned.  `exps = []` is excluded by the C's `ASSERT(exps && exp_count > 0)`. -/
def orderExpressions (qg : QueryGraph) (exps : List Expr)
    (filtered_entities : List String) (bound_vars : Option (List String))
    (maintainTranspose : Bool) : List Expr :=
  match exps with
  | [] => []
  | e0 :: rest =>
    if rest.isEmpty && e0.operandCount == 1 && e0.source == e0.destination then
      e0 :: rest
    else
      let arrangements := permutations (e0 :: rest)
      if arrangements.length == 1 then
        apply_entry_point qg filtered_entities bound_vars (e0 :: rest)
      else
        let valid_arrangements := arrangements.filter (fun a => valid_arrangement a qg)
        let top_arrangement := pickTop
          (fun a => score_arrangement a qg filtered_entities bound_vars maintainTranspose)
          valid_arrangements
        apply_entry_point qg filtered_entities bound_vars
          (resolve_winning_sequence top_arrangement)

/-- Traversal directions (`GRAPH_EDGE_DIR_*`). -/
inductive GraphEdgeDir where
  | outgoing
  | incoming
  | both
deriving DecidableEq, Repr

/-- A query-graph edge as `_setTraverseDirection` observes it. -/
structure QGEdge where
  bidirectional : Bool

/-- `AlgebraicExpression_Transposed`: whether the top-level expression is
currently in transposed form. -/
def Expr.isTransposedForm (e : Expr) : Bool := e.transposed

/-- `_setTraverseDirection`: a bidirectional edge traverses in both directions;
otherwise a transposed expression traverses incoming edges, an untransposed one
outgoing edges. -/
def setTraverseDirection (ae : Expr) (e : QGEdge) : GraphEdgeDir :=
  if e.bidirectional then GraphEdgeDir.both
  else if ae.isTransposedForm then GraphEdgeDir.incoming
  else GraphEdgeDir.outgoing

/-- The fields of `CondVarLenTraverse` that `NewCondVarLenTraverseOp`
determines from the algebraic expression and its query-graph edge (records,
relation arrays and child operators are runtime machinery outside this model). -/
structure CondVarLenTraverse where
  ae : Expr
  traverseDir : GraphEdgeDir

/-- `NewCondVarLenTraverseOp`, reduced to the construction of the traversal
direction: the op stores the expression and the direction computed by
`_setTraverseDirection` from the query-graph edge of the expression's edge
alias. -/
def NewCondVarLenTraverseOp (ae : Expr) (e : QGEdge) : CondVarLenTraverse :=
  { ae := ae, traverseDir := setTraverseDirection ae e }

/-! ### Permutation infrastructure -/

theorem cons_set_perm {α : Type} (t : List α) (a b : α) :
    ∀ m : Nat, t.get? m = some b → (b :: t.set m a).Perm (a :: t) := by
  induction t with
  | nil => intro m h; simp at h
  | cons x t' ih =>
    intro m h
    cases m with
    | zero =>
      simp only [List.get?_cons_zero, Option.some.injEq] at h
      subst h
      exact List.Perm.swap _ _ _
    | succ m' =>
      simp only [List.get?_cons_succ] at h
      refine ((List.Perm.swap _ _ _).trans ((ih m' h).cons x)).trans (List.Perm.swap _ _ _)

theorem set_set_perm {α : Type} (xs : List α) :
    ∀ (i j : Nat) (a b : α), xs.get? i = some a → xs.get? j = some b →
      ((xs.set i b).set j a).Perm xs := by
  induction xs with
  | nil => intro i j a b ha _; simp at ha
  | cons x t ih =>
    intro i j a b ha hb
    cases i with
    | zero =>
      simp only [List.get?_cons_zero, Option.some.injEq] at ha
      subst ha
      cases j with
      | zero =>
        simp only [List.get?_cons_zero, Option.some.injEq] at hb
        subst hb
        simp
      | succ m =>
        simp only [List.get?_cons_succ] at hb
        simpa using cons_set_perm t x b m hb
    | succ k =>
      simp only [List.get?_cons_succ] at ha
      cases j with
      | zero =>
        simp only [List.get?_cons_zero, Option.some.injEq] at hb
        subst hb
        simpa using cons_set_perm t x a k ha
      | succ m =>
        simp only [List.get?_cons_succ] at hb
        simpa using (ih k m a b ha hb).cons x

theorem swapList_perm {α : Type} (xs : List α) (i j : Nat) : (swapList xs i j).Perm xs := by
  unfold swapList
  cases h1 : xs.get? i with
  | none =>
    cases h2 : xs.get? j with
    | none => exact List.Perm.refl xs
    | some b => exact List.Perm.refl xs
  | some a =>
    cases h2 : xs.get? j with
    | none => exact List.Perm.refl xs
    | some b => exact set_set_perm xs i j a b h1 h2

theorem mem_permute_perm {α : Type} : ∀ (n : Nat) (set : List α) (l : Nat) (a : List α),
    a ∈ permute n set l → a.Perm set := by
  intro n
  match n with
  | 0 => intro set l a h; simp [permute] at h
  | 1 =>
    intro set l a h
    simp only [permute, List.mem_singleton] at h
    subst h
    exact List.Perm.refl _
  | m + 2 =>
    intro set l a h
    simp only [permute, List.mem_flatten, List.mem_map] at h
    obtain ⟨inner, ⟨i, _, rfl⟩, hmem⟩ := h
    exact (mem_permute_perm (m + 1) (swapList set l i) (l + 1) a hmem).trans
      (swapList_perm set l i)

theorem length_permute {α : Type} : ∀ (n : Nat) (set : List α) (l : Nat),
    (permute n set l).length = if n = 0 then 0 else n.factorial := by
  intro n
  match n with
  | 0 => intro set l; simp [permute]
  | 1 => intro set l; simp [permute, Nat.factorial]
  | m + 2 =>
    intro set l
    simp only [permute, if_neg (Nat.succ_ne_zero _)]
    rw [List.length_flatten, List.map_map]
    have hcongr : ∀ i ∈ List.range' l (m + 2),
        (List.length ∘ fun i => permute (m + 1) (swapList set l i) (l + 1)) i =
          (m + 1).factorial := by
      intro i _
      simp only [Function.comp_apply]
      rw [length_permute (m + 1) (swapList set l i) (l + 1)]
      simp
    rw [List.map_congr_left hcongr, List.map_const', List.sum_replicate, List.length_range',
      smul_eq_mul]
    simp only [Nat.factorial_succ]

theorem permutations_length (exps : List Expr) :
    (permutations exps).length = if exps.length = 0 then 0 else exps.length.factorial :=
  length_permute exps.length exps 0

/-! ### The max-score scan returns a member of the candidate list -/

theorem pickTopAux_mem (score : List Expr → Int) :
    ∀ (l : List (List Expr)) (best : List Expr) (bs : Int),
      pickTopAux score best bs l = best ∨ pickTopAux score best bs l ∈ l := by
  intro l
  induction l with
  | nil => intro best bs; left; rfl
  | cons a rest ih =>
    intro best bs
    simp only [pickTopAux]
    split
    · rcases ih a (score a) with h | h
      · right; rw [h]; exact List.mem_cons_self a rest
      · right; exact List.mem_cons_of_mem a h
    · rcases ih best bs with h | h
      · left; exact h
      · right; exact List.mem_cons_of_mem a h

theorem pickTop_mem (score : List Expr → Int) (a : List Expr) (rest : List (List Expr)) :
    pickTop score (a :: rest) ∈ a :: rest := by
  simp only [pickTop]
  rcases pickTopAux_mem score rest a (score a) with h | h
  · rw [h]; exact List.mem_cons_self a rest
  · exact List.mem_cons_of_mem a h

/-! ### Transposition is endpoint-set preserving -/

theorem sharesEndpoint_transpose (q e : Expr) :
    sharesEndpoint q.transpose e = sharesEndpoint q e := by
  simp [sharesEndpoint, Expr.transpose, Bool.or_comm, Bool.or_assoc, Bool.or_left_comm]

theorem srcResolved_cons_transpose (q e : Expr) (l : List Expr) :
    srcResolved (q.transpose :: l) e = srcResolved (q :: l) e := by
  simp [srcResolved, Expr.transpose, Bool.or_comm]

/-! ### The chaining scan, characterized -/

theorem chainValidAux_congr : ∀ (rest l1 l2 : List Expr),
    (∀ x, l1.any (fun p => sharesEndpoint p x) = l2.any (fun p => sharesEndpoint p x)) →
    chainValidAux l1 rest = chainValidAux l2 rest := by
  intro rest
  induction rest with
  | nil => intro l1 l2 _; rfl
  | cons e t ih =>
    intro l1 l2 h
    have h2 : ∀ x, (l1 ++ [e]).any (fun p => sharesEndpoint p x) =
        (l2 ++ [e]).any (fun p => sharesEndpoint p x) := by
      intro x
      simp [List.any_append, h x]
    simp only [chainValidAux]
    rw [h e, ih (l1 ++ [e]) (l2 ++ [e]) h2]

theorem chainValidAux_eq_true_iff : ∀ (rest prev : List Expr),
    chainValidAux prev rest = true ↔
      ∀ (k : Nat) (hk : k < rest.length),
        ∃ p, p ∈ prev ++ rest.take k ∧ sharesEndpoint p (rest.get ⟨k, hk⟩) = true := by
  intro rest
  induction rest with
  | nil => intro prev; simp [chainValidAux]
  | cons e t ih =>
    intro prev
    simp only [chainValidAux, Bool.and_eq_true, List.any_eq_true]
    rw [ih (prev ++ [e])]
    constructor
    · rintro ⟨⟨p, hp, hs⟩, hrec⟩ k hk
      cases k with
      | zero =>
        exact ⟨p, by simpa using hp, hs⟩
      | succ k' =>
        obtain ⟨q, hq, hqs⟩ := hrec k' (by simpa using hk)
        refine ⟨q, ?_, by simpa using hqs⟩
        simp only [List.mem_append, List.mem_cons, List.mem_singleton, List.take_succ_cons,
          or_assoc, List.not_mem_nil, false_or, or_false] at hq ⊢
        tauto
    · intro h
      refine ⟨?_, ?_⟩
      · obtain ⟨p, hp, hs⟩ := h 0 (by simp)
        exact ⟨p, by simpa using hp, by simpa using hs⟩
      · intro k' hk'
        obtain ⟨q, hq, hqs⟩ := h (k' + 1) (by simpa using hk')
        refine ⟨q, ?_, by simpa using hqs⟩
        simp only [List.mem_append, List.mem_cons, List.mem_singleton, List.take_succ_cons,
          or_assoc, List.not_mem_nil, false_or, or_false] at hq ⊢
        tauto

/-! ### Phase 1 resolves every non-opener source -/

theorem resolveAux_resolved : ∀ (rest prev : List Expr), chainValidAux prev rest = true →
    ∀ (k : Nat) (x : Expr), (resolveAux prev rest).get? k = some x →
      srcResolved (prev ++ (resolveAux prev rest).take k) x = true := by
  intro rest
  induction rest with
  | nil => intro prev _ k x hx; simp [resolveAux] at hx
  | cons e t ih =>
    intro prev h k x hx
    simp only [chainValidAux, Bool.and_eq_true] at h
    obtain ⟨hany, hchain⟩ := h
    by_cases hres : srcResolved prev e = true
    · rw [show resolveAux prev (e :: t) = e :: resolveAux (prev ++ [e]) t by
        simp [resolveAux, hres]] at hx ⊢
      cases k with
      | zero =>
        simp only [List.get?_cons_zero, Option.some.injEq] at hx
        subst hx
        simpa using hres
      | succ k' =>
        simp only [List.get?_cons_succ] at hx
        have hrec := ih (prev ++ [e]) hchain k' x hx
        simp only [List.take_succ_cons]
        rw [show prev ++ e :: (resolveAux (prev ++ [e]) t).take k' =
          (prev ++ [e]) ++ (resolveAux (prev ++ [e]) t).take k' by simp]
        exact hrec
    · rw [Bool.not_eq_true] at hres
      have hres2 : ¬ srcResolved prev e = true := by simp [hres]
      have hres' : srcResolved prev e.transpose = true := by
        rw [List.any_eq_true] at hany
        obtain ⟨p, hp, hshare⟩ := hany
        rw [srcResolved, List.any_eq_false] at hres
        have hpfalse := hres p hp
        simp only [Bool.not_eq_true, Bool.or_eq_false_iff, beq_eq_false_iff_ne, ne_eq] at hpfalse
        simp only [sharesEndpoint, Bool.or_eq_true, beq_iff_eq] at hshare
        simp only [srcResolved, List.any_eq_true, Expr.transpose, beq_iff_eq]
        refine ⟨p, hp, ?_⟩
        simp only [Bool.or_eq_true, beq_iff_eq]
        tauto
      have hchain' : chainValidAux (prev ++ [e.transpose]) t = true := by
        rw [chainValidAux_congr t (prev ++ [e.transpose]) (prev ++ [e]) ?_]
        · exact hchain
        · intro x
          simp [List.any_append, sharesEndpoint_transpose]
      rw [show resolveAux prev (e :: t) = e.transpose :: resolveAux (prev ++ [e.transpose]) t by
        simp [resolveAux, hres]] at hx ⊢
      cases k with
      | zero =>
        simp only [List.get?_cons_zero, Option.some.injEq] at hx
        subst hx
        simpa using hres'
      | succ k' =>
        simp only [List.get?_cons_succ] at hx
        have hrec := ih (prev ++ [e.transpose]) hchain' k' x hx
        simp only [List.take_succ_cons]
        rw [show prev ++ e.transpose :: (resolveAux (prev ++ [e.transpose]) t).take k' =
          (prev ++ [e.transpose]) ++ (resolveAux (prev ++ [e.transpose]) t).take k' by simp]
        exact hrec

/-- The filter/label fallback returns its argument unchanged or transposed. -/
theorem select_entry_heuristic_cases (qg : QueryGraph) (e : Expr) (f : List String) :
    select_entry_heuristic qg e f = e ∨ select_entry_heuristic qg e f = e.transpose := by
  unfold select_entry_heuristic
  dsimp only
  by_cases h : ((if f.contains e.source then F else 0) +
      (if (qg.nodeLabel e.source).isSome then L else 0) <
      (if f.contains e.destination then F else 0) +
      (if (qg.nodeLabel e.destination).isSome then L else 0))
  · exact Or.inr (by rw [if_pos h])
  · exact Or.inl (by rw [if_neg h])

/-- `_select_entry_point` returns its argument either unchanged or transposed
once. -/
theorem select_entry_point_cases (qg : QueryGraph) (e : Expr) (f : List String)
    (b : Option (List String)) :
    select_entry_point qg e f b = e ∨ select_entry_point qg e f b = e.transpose := by
  unfold select_entry_point
  split
  · exact Or.inl rfl
  · cases b with
    | none => exact select_entry_heuristic_cases qg e f
    | some bv =>
      dsimp only
      split
      · exact Or.inl rfl
      · split
        · exact Or.inr rfl
        · exact select_entry_heuristic_cases qg e f

/-- Converting a resolved prefix scan into an indexed predecessor witness. -/
theorem srcResolved_take_exists (arr : List Expr) (i : Nat) (x : Expr)
    (h : srcResolved (arr.take i) x = true) :
    ∃ j, ∃ hj : j < arr.length, j < i ∧
      ((arr.get ⟨j, hj⟩).source = x.source ∨ (arr.get ⟨j, hj⟩).destination = x.source) := by
  rw [srcResolved, List.any_eq_true] at h
  obtain ⟨p, hp, hpred⟩ := h
  obtain ⟨j, hj, he⟩ := List.getElem_of_mem hp
  have hrange : j < i ∧ j < arr.length := by
    simp only [List.length_take] at hj
    omega
  refine ⟨j, hrange.2, hrange.1, ?_⟩
  have : arr.get ⟨j, hrange.2⟩ = p := by
    rw [← he]
    simp [List.getElem_take]
  rw [this]
  simpa [beq_iff_eq] using hpred

/-! ### Branch shapes of the driver -/

theorem permutations_singleton (e : Expr) : permutations [e] = [[e]] := rfl

theorem orderExpressions_single (qg : QueryGraph) (e : Expr) (f : List String)
    (b : Option (List String)) (mt : Bool) :
    orderExpressions qg [e] f b mt =
      if e.operandCount == 1 && e.source == e.destination then [e]
      else [select_entry_point qg e f b] := by
  by_cases h : (e.operandCount == 1 && e.source == e.destination) = true
  · simp [orderExpressions, h]
  · simp only [Bool.not_eq_true] at h
    simp [orderExpressions, h, permutations_singleton, apply_entry_point]

theorem orderExpressions_multi (qg : QueryGraph) (f : List String) (b : Option (List String))
    (mt : Bool) (e0 e1 : Expr) (rest : List Expr) :
    orderExpressions qg (e0 :: e1 :: rest) f b mt =
      apply_entry_point qg f b (resolve_winning_sequence
        (pickTop (fun a => score_arrangement a qg f b mt)
          ((permutations (e0 :: e1 :: rest)).filter (fun a => valid_arrangement a qg)))) := by
  have hlen : (permutations (e0 :: e1 :: rest)).length ≠ 1 := by
    rw [permutations_length]
    have h1 : (e0 :: e1 :: rest).length = rest.length + 2 := by simp
    rw [h1, if_neg (Nat.succ_ne_zero _)]
    have h2 : rest.length + 2 ≤ (rest.length + 2).factorial := Nat.self_le_factorial _
    omega
  simp [orderExpressions, hlen]

/-! ### The pipeline preserves expression identities -/

theorem resolveAux_map_eid : ∀ (l prev : List Expr),
    (resolveAux prev l).map Expr.eid = l.map Expr.eid := by
  intro l
  induction l with
  | nil => intro prev; rfl
  | cons e t ih =>
    intro prev
    by_cases h : srcResolved prev e = true
    · simp [resolveAux, h, ih, Expr.transpose]
    · simp only [Bool.not_eq_true] at h
      simp [resolveAux, h, ih, Expr.transpose]

theorem resolve_map_eid (arr : List Expr) :
    (resolve_winning_sequence arr).map Expr.eid = arr.map Expr.eid := by
  cases arr with
  | nil => rfl
  | cons e rest => simp [resolve_winning_sequence, resolveAux_map_eid]

theorem select_entry_point_eid (qg : QueryGraph) (e : Expr) (f : List String)
    (b : Option (List String)) : (select_entry_point qg e f b).eid = e.eid := by
  rcases select_entry_point_cases qg e f b with h | h <;> simp [h, Expr.transpose]

theorem apply_entry_point_map_eid (qg : QueryGraph) (f : List String)
    (b : Option (List String)) (arr : List Expr) :
    (apply_entry_point qg f b arr).map Expr.eid = arr.map Expr.eid := by
  cases arr with
  | nil => rfl
  | cons e rest => simp [apply_entry_point, select_entry_point_eid]

theorem valid_arrangement_chain (e : Expr) (rest : List Expr) (qg : QueryGraph)
    (h : valid_arrangement (e :: rest) qg = true) : chainValidAux [e] rest = true := by
  rw [valid_arrangement] at h
  split at h
  · exact absurd h (by simp)
  · exact h

/-- C2: for every input of length `n ≥ 1` on which `orderExpressions` returns
(at least one valid arrangement must exist when `n ≥ 2`, matching the C's
assertion), the output array has length `n` and carries the same multiset of
expression identities as the input: the same objects, permuted and possibly
transposed in place, with none added, dropped, duplicated or replaced. -/
theorem C2_same_multiset (qg : QueryGraph) (exps : List Expr) (f : List String)
    (b : Option (List String)) (mt : Bool) (hne : exps ≠ [])
    (hvalid : 2 ≤ exps.length →
      (permutations exps).filter (fun a => valid_arrangement a qg) ≠ []) :
    (orderExpressions qg exps f b mt).length = exps.length ∧
      ((orderExpressions qg exps f b mt).map Expr.eid).Perm (exps.map Expr.eid) := by
  suffices hp : ((orderExpressions qg exps f b mt).map Expr.eid).Perm (exps.map Expr.eid) by
    refine ⟨?_, hp⟩
    have := hp.length_eq
    simpa using this
  match exps, hne with
  | [e], _ =>
    rw [orderExpressions_single]
    split
    · exact List.Perm.refl _
    · rcases select_entry_point_cases qg e f b with h | h <;> simp [h, Expr.transpose]
  | e0 :: e1 :: rest, _ =>
    rw [orderExpressions_multi]
    have hv := hvalid (by simp)
    rcases hfv : (permutations (e0 :: e1 :: rest)).filter (fun a => valid_arrangement a qg) with
      _ | ⟨a, arest⟩
    · exact absurd hfv hv
    · have htop := pickTop_mem (fun a => score_arrangement a qg f b mt) a arest
      have hmem : pickTop (fun a => score_arrangement a qg f b mt) (a :: arest) ∈
          permutations (e0 :: e1 :: rest) := by
        have hf : pickTop (fun a => score_arrangement a qg f b mt) (a :: arest) ∈
            (permutations (e0 :: e1 :: rest)).filter (fun a => valid_arrangement a qg) := by
          rw [hfv]; exact htop
        exact (List.mem_filter.mp hf).1
      have hperm := mem_permute_perm _ _ _ _ hmem
      rw [apply_entry_point_map_eid, resolve_map_eid]
      exact hperm.map Expr.eid

theorem resolved_entry_chained (qg : QueryGraph) (f : List String) (b : Option (List String))
    (t0 : Expr) (ttail : List Expr) (hchain : chainValidAux [t0] ttail = true) :
    ∀ (i : Nat)
      (hi : i < (apply_entry_point qg f b (resolve_winning_sequence (t0 :: ttail))).length),
      0 < i →
      ∃ j, ∃ hj : j < (apply_entry_point qg f b (resolve_winning_sequence (t0 :: ttail))).length,
        j < i ∧
        (((apply_entry_point qg f b (resolve_winning_sequence (t0 :: ttail))).get ⟨j, hj⟩).source =
            ((apply_entry_point qg f b (resolve_winning_sequence (t0 :: ttail))).get
              ⟨i, hi⟩).source ∨
         ((apply_entry_point qg f b
              (resolve_winning_sequence (t0 :: ttail))).get ⟨j, hj⟩).destination =
            ((apply_entry_point qg f b (resolve_winning_sequence (t0 :: ttail))).get
              ⟨i, hi⟩).source) := by
  have hshape : apply_entry_point qg f b (resolve_winning_sequence (t0 :: ttail)) =
      select_entry_point qg t0 f b :: resolveAux [t0] ttail := rfl
  rw [hshape]
  intro i hi hpos
  cases i with
  | zero => omega
  | succ k =>
    have hk : k < (resolveAux [t0] ttail).length := by
      simpa using hi
    have hx : (resolveAux [t0] ttail).get? k = some ((resolveAux [t0] ttail).get ⟨k, hk⟩) :=
      List.get?_eq_get hk
    have hres0 := resolveAux_resolved ttail [t0] hchain k _ hx
    have hres1 : srcResolved ((select_entry_point qg t0 f b :: resolveAux [t0] ttail).take (k + 1))
        ((resolveAux [t0] ttail).get ⟨k, hk⟩) = true := by
      rw [List.take_succ_cons]
      rcases select_entry_point_cases qg t0 f b with h | h
      · rw [h]
        simpa using hres0
      · rw [h, srcResolved_cons_transpose]
        simpa using hres0
    obtain ⟨j, hj, hji, hsd⟩ := srcResolved_take_exists
      (select_entry_point qg t0 f b :: resolveAux [t0] ttail) (k + 1) _ hres1
    refine ⟨j, hj, hji, ?_⟩
    simpa [List.get_cons_succ] using hsd

/-- C1: on every input on which `orderExpressions` returns (`n ≥ 1`, and — as
the C asserts — at least one valid arrangement when `n ≥ 2`), the output
satisfies the chaining invariant: for every position `i ≥ 1`, the source alias
of the expression at `i` equals the source or destination alias of some
expression at a position `j < i`. -/
theorem C1_chaining (qg : QueryGraph) (exps : List Expr) (f : List String)
    (b : Option (List String)) (mt : Bool) (hne : exps ≠ [])
    (hvalid : 2 ≤ exps.length →
      (permutations exps).filter (fun a => valid_arrangement a qg) ≠ []) :
    ∀ (i : Nat) (hi : i < (orderExpressions qg exps f b mt).length), 0 < i →
      ∃ j, ∃ hj : j < (orderExpressions qg exps f b mt).length, j < i ∧
        (((orderExpressions qg exps f b mt).get ⟨j, hj⟩).source =
            ((orderExpressions qg exps f b mt).get ⟨i, hi⟩).source ∨
         ((orderExpressions qg exps f b mt).get ⟨j, hj⟩).destination =
            ((orderExpressions qg exps f b mt).get ⟨i, hi⟩).source) := by
  match exps, hne with
  | [e], _ =>
    intro i hi hpos
    exfalso
    rw [orderExpressions_single] at hi
    split at hi <;> simp at hi <;> omega
  | e0 :: e1 :: rest, _ =>
    rw [orderExpressions_multi]
    have hv := hvalid (by simp)
    rcases hfv : (permutations (e0 :: e1 :: rest)).filter (fun a => valid_arrangement a qg) with
      _ | ⟨a, arest⟩
    · exact absurd hfv hv
    · have htopmem := pickTop_mem (fun a => score_arrangement a qg f b mt) a arest
      have hfmem : pickTop (fun a => score_arrangement a qg f b mt) (a :: arest) ∈
          (permutations (e0 :: e1 :: rest)).filter (fun a => valid_arrangement a qg) := by
        rw [hfv]; exact htopmem
      have hvalidtop : valid_arrangement
          (pickTop (fun a => score_arrangement a qg f b mt) (a :: arest)) qg = true := by
        simpa using (List.mem_filter.mp hfmem).2
      have hperm := mem_permute_perm _ _ _ _ ((List.mem_filter.mp hfmem).1)
      have hne2 : pickTop (fun a => score_arrangement a qg f b mt) (a :: arest) ≠ [] := by
        intro hnil
        have hlen := hperm.length_eq
        rw [hnil] at hlen
        simp at hlen
      obtain ⟨t0, ttail, heq⟩ := List.exists_cons_of_ne_nil hne2
      rw [heq] at hvalidtop ⊢
      exact resolved_entry_chained qg f b t0 ttail
        (valid_arrangement_chain t0 ttail qg hvalidtop)

theorem mem_take_iff_get {α : Type} (l : List α) (k : Nat) (p : α) :
    p ∈ l.take k ↔ ∃ j, ∃ hj : j < l.length, j < k ∧ l.get ⟨j, hj⟩ = p := by
  constructor
  · intro h
    obtain ⟨j, hj, he⟩ := List.getElem_of_mem h
    have hr : j < k ∧ j < l.length := by
      simp only [List.length_take] at hj
      omega
    refine ⟨j, hr.2, hr.1, ?_⟩
    rw [← he]
    simp [List.getElem_take]
  · rintro ⟨j, hj, hjk, rfl⟩
    have hjt : j < (l.take k).length := by
      simp only [List.length_take]
      omega
    have he : (l.take k).get ⟨j, hjt⟩ = l.get ⟨j, hj⟩ := by simp [List.getElem_take]
    rw [← he]
    exact List.get_mem _ _ _

theorem mem_cons_take_iff (e : Expr) (rest : List Expr) (k : Nat) (p : Expr) :
    p ∈ [e] ++ rest.take k ↔
      ∃ j, ∃ hj : j < (e :: rest).length, j < k + 1 ∧ (e :: rest).get ⟨j, hj⟩ = p := by
  rw [List.singleton_append, List.mem_cons, mem_take_iff_get]
  constructor
  · rintro (rfl | ⟨j, hj, hjk, hp⟩)
    · exact ⟨0, by simp, by omega, rfl⟩
    · refine ⟨j + 1, by simpa using hj, by omega, ?_⟩
      simpa using hp
  · rintro ⟨j, hj, hjk, hp⟩
    cases j with
    | zero => exact Or.inl hp.symm
    | succ m =>
      refine Or.inr ⟨m, by simpa using hj, by omega, ?_⟩
      simpa using hp

/-- C3: the validity filter accepts an arrangement iff both the chaining rule
(every position `i ≥ 1` shares an endpoint with some position `j < i`, all
four source/destination combinations compared byte-exactly) and the opener
rule (the first expression must not be a single-operand edge expression with a
labeled source or destination node) hold.  Being a pure function of its
arguments, the embedded filter mutates nothing. -/
theorem C3_validity_filter (qg : QueryGraph) (arr : List Expr) (hne : arr ≠ []) :
    valid_arrangement arr qg = true ↔
      ((∀ (i : Nat) (hi : i < arr.length), 0 < i →
          ∃ j, ∃ hj : j < arr.length, j < i ∧
            ((arr.get ⟨j, hj⟩).source = (arr.get ⟨i, hi⟩).source ∨
             (arr.get ⟨j, hj⟩).destination = (arr.get ⟨i, hi⟩).source ∨
             (arr.get ⟨j, hj⟩).source = (arr.get ⟨i, hi⟩).destination ∨
             (arr.get ⟨j, hj⟩).destination = (arr.get ⟨i, hi⟩).destination)) ∧
       ¬ ((arr.get ⟨0, List.length_pos.mpr hne⟩).edge.isSome = true ∧
          (arr.get ⟨0, List.length_pos.mpr hne⟩).operandCount = 1 ∧
          ((qg.nodeLabel (arr.get ⟨0, List.length_pos.mpr hne⟩).source).isSome = true ∨
           (qg.nodeLabel (arr.get ⟨0, List.length_pos.mpr hne⟩).destination).isSome = true))) := by
  match arr, hne with
  | e :: rest, _ =>
    have hval : valid_arrangement (e :: rest) qg = true ↔
        (¬ ((((qg.nodeLabel e.source).isSome || (qg.nodeLabel e.destination).isSome) &&
             e.edge.isSome && e.operandCount == 1) = true) ∧
          chainValidAux [e] rest = true) := by
      simp only [valid_arrangement]
      by_cases hcond : ((((qg.nodeLabel e.source).isSome ||
          (qg.nodeLabel e.destination).isSome) && e.edge.isSome && e.operandCount == 1) = true)
      · simp [hcond]
      · simp [hcond]
    rw [hval, chainValidAux_eq_true_iff]
    constructor
    · rintro ⟨hopener, hchain⟩
      constructor
      · intro i hi hpos
        cases i with
        | zero => omega
        | succ k =>
          have hk : k < rest.length := by simpa using hi
          obtain ⟨p, hp, hs⟩ := hchain k hk
          obtain ⟨j, hj, hjk, hpj⟩ := (mem_cons_take_iff e rest k p).mp hp
          refine ⟨j, hj, by omega, ?_⟩
          rw [hpj]
          have hx : (e :: rest).get ⟨k + 1, hi⟩ = rest.get ⟨k, hk⟩ := by simp
          rw [hx]
          simpa [sharesEndpoint, Bool.or_eq_true, beq_iff_eq, or_assoc] using hs
      · intro hbad
        apply hopener
        simp only [List.get] at hbad
        simp only [Bool.and_eq_true, Bool.or_eq_true, beq_iff_eq]
        tauto
    · rintro ⟨hchain, hopener⟩
      constructor
      · intro hcond
        apply hopener
        simp only [List.get]
        simp only [Bool.and_eq_true, Bool.or_eq_true, beq_iff_eq] at hcond
        tauto
      · intro k hk
        have hk1 : k + 1 < (e :: rest).length := by simpa using hk
        obtain ⟨j, hj, hjk, hsd⟩ := hchain (k + 1) hk1 (by omega)
        refine ⟨(e :: rest).get ⟨j, hj⟩, ?_, ?_⟩
        · exact (mem_cons_take_iff e rest k _).mpr ⟨j, hj, by omega, rfl⟩
        · have hx : (e :: rest).get ⟨k + 1, hk1⟩ = rest.get ⟨k, hk⟩ := by simp
          rw [hx] at hsd
          simpa [sharesEndpoint, Bool.or_eq_true, beq_iff_eq, or_assoc] using hsd

theorem contains_iff_mem (l : List String) (x : String) : l.contains x = true ↔ x ∈ l := by
  simp

/-- C4: the entry-point selector follows exactly the claimed decision tree:
a single-operand self-loop is untouched; with a bound-variable set present,
a bound source means no transpose and a bound destination (source unbound)
means transpose; otherwise the expression is transposed iff the destination's
filter-plus-label score strictly exceeds the source's.  Consequently, when a
bound-variable set is present and the opener's source or destination is bound,
the selected opener's source is bound. -/
theorem C4_entry_point (qg : QueryGraph) (e : Expr) (f : List String)
    (b : Option (List String)) :
    (e.operandCount = 1 ∧ e.source = e.destination →
        select_entry_point qg e f b = e) ∧
    (∀ bv, b = some bv → ¬(e.operandCount = 1 ∧ e.source = e.destination) →
        e.source ∈ bv → select_entry_point qg e f b = e) ∧
    (∀ bv, b = some bv → ¬(e.operandCount = 1 ∧ e.source = e.destination) →
        e.source ∉ bv → e.destination ∈ bv →
        select_entry_point qg e f b = e.transpose) ∧
    ((b = none ∨ ∃ bv, b = some bv ∧ e.source ∉ bv ∧ e.destination ∉ bv) →
        ¬(e.operandCount = 1 ∧ e.source = e.destination) →
        select_entry_point qg e f b =
          if ((if e.source ∈ f then F else 0) +
                (if (qg.nodeLabel e.source).isSome = true then L else 0) <
              (if e.destination ∈ f then F else 0) +
                (if (qg.nodeLabel e.destination).isSome = true then L else 0))
          then e.transpose else e) ∧
    (∀ bv, b = some bv → (e.source ∈ bv ∨ e.destination ∈ bv) →
        (select_entry_point qg e f b).source ∈ bv) := by
  have hcond : (e.operandCount == 1 && e.source == e.destination) = true ↔
      (e.operandCount = 1 ∧ e.source = e.destination) := by
    simp [Bool.and_eq_true]
  have hheur : select_entry_heuristic qg e f =
      if ((if e.source ∈ f then F else 0) +
            (if (qg.nodeLabel e.source).isSome = true then L else 0) <
          (if e.destination ∈ f then F else 0) +
            (if (qg.nodeLabel e.destination).isSome = true then L else 0))
      then e.transpose else e := by
    unfold select_entry_heuristic
    dsimp only
    have h1 : (if f.contains e.source then F else 0) = (if e.source ∈ f then F else 0) := by
      by_cases h : e.source ∈ f <;> simp [h]
    have h2 : (if f.contains e.destination then F else 0) =
        (if e.destination ∈ f then F else 0) := by
      by_cases h : e.destination ∈ f <;> simp [h]
    rw [h1, h2]
  refine ⟨?_, ?_, ?_, ?_, ?_⟩
  · intro h
    unfold select_entry_point
    rw [if_pos (hcond.mpr h)]
  · intro bv hb h hsrc
    subst hb
    unfold select_entry_point
    rw [if_neg (fun hc => h (hcond.mp hc))]
    dsimp only
    rw [if_pos ((contains_iff_mem bv e.source).mpr hsrc)]
  · intro bv hb h hsrc hdest
    subst hb
    unfold select_entry_point
    rw [if_neg (fun hc => h (hcond.mp hc))]
    dsimp only
    rw [if_neg (fun hc => hsrc ((contains_iff_mem bv e.source).mp hc)),
        if_pos ((contains_iff_mem bv e.destination).mpr hdest)]
  · intro hb h
    rw [← hheur]
    rcases hb with rfl | ⟨bv, rfl, hsrc, hdest⟩
    · unfold select_entry_point
      rw [if_neg (fun hc => h (hcond.mp hc))]
    · unfold select_entry_point
      rw [if_neg (fun hc => h (hcond.mp hc))]
      dsimp only
      rw [if_neg (fun hc => hsrc ((contains_iff_mem bv e.source).mp hc)),
          if_neg (fun hc => hdest ((contains_iff_mem bv e.destination).mp hc))]
  · intro bv hb hor
    subst hb
    by_cases hself : (e.operandCount == 1 && e.source == e.destination) = true
    · have heq : select_entry_point qg e f (some bv) = e := by
        unfold select_entry_point
        rw [if_pos hself]
      rw [heq]
      rcases hcond.mp hself with ⟨_, hsd⟩
      rcases hor with h | h
      · exact h
      · rw [hsd]; exact h
    · by_cases hsrc : e.source ∈ bv
      · have heq : select_entry_point qg e f (some bv) = e := by
          unfold select_entry_point
          rw [if_neg hself]
          dsimp only
          rw [if_pos ((contains_iff_mem bv e.source).mpr hsrc)]
        rw [heq]
        exact hsrc
      · have hdest : e.destination ∈ bv := by tauto
        have heq : select_entry_point qg e f (some bv) = e.transpose := by
          unfold select_entry_point
          rw [if_neg hself]
          dsimp only
          rw [if_neg (fun hc => hsrc ((contains_iff_mem bv e.source).mp hc)),
              if_pos ((contains_iff_mem bv e.destination).mpr hdest)]
        rw [heq]
        simpa [Expr.transpose] using hdest

theorem reward_loop_enumFrom (qg : QueryGraph) (f : List String) (b : Option (List String))
    (n : Nat) : ∀ (l : List Expr) (i : Nat),
    reward_arrangement_from qg f b n i l =
      ((l.enumFrom i).map (fun p =>
        (match b with
         | some bv =>
           (if p.2.source ∈ bv then B * ((n - p.1 : Nat) : Int) else 0) +
           (if p.2.destination ∈ bv then B * ((n - p.1 : Nat) : Int) else 0)
         | none => 0) +
        (if p.2.source ∈ f then F * ((n - p.1 : Nat) : Int) else 0) +
        (if p.2.destination ∈ f then F * ((n - p.1 : Nat) : Int) else 0) +
        (if (qg.nodeLabel p.2.source).isSome = true
          then L * ((n - p.1 : Nat) : Int) else 0))).sum := by
  intro l
  induction l with
  | nil => intro i; rfl
  | cons e t ih =>
    intro i
    simp only [List.enumFrom, List.map_cons, List.sum_cons]
    rw [show reward_arrangement_from qg f b n i (e :: t) =
      reward_expression e qg f b (n - i) + reward_arrangement_from qg f b n (i + 1) t from rfl]
    rw [ih (i + 1)]
    congr 1
    unfold reward_expression
    have hsf : (if f.contains e.source then F * ((n - i : Nat) : Int) else 0) =
        (if e.source ∈ f then F * ((n - i : Nat) : Int) else 0) := by
      by_cases h : e.source ∈ f <;> simp [h]
    have hdf : (if f.contains e.destination then F * ((n - i : Nat) : Int) else 0) =
        (if e.destination ∈ f then F * ((n - i : Nat) : Int) else 0) := by
      by_cases h : e.destination ∈ f <;> simp [h]
    cases b with
    | none => rw [hsf, hdf]
    | some bv =>
      have hsb : (if bv.contains e.source then B * ((n - i : Nat) : Int) else 0) =
          (if e.source ∈ bv then B * ((n - i : Nat) : Int) else 0) := by
        by_cases h : e.source ∈ bv <;> simp [h]
      have hdb : (if bv.contains e.destination then B * ((n - i : Nat) : Int) else 0) =
          (if e.destination ∈ bv then B * ((n - i : Nat) : Int) else 0) := by
        by_cases h : e.destination ∈ bv <;> simp [h]
      rw [hsf, hdf]
      dsimp only
      rw [hsb, hdb]

/-- C5: the reward of an arrangement of length `n` is the positionally weighted
sum, with factor `n - i` at position `i`, of `B` per supplied-and-bound
endpoint, `F` per filtered endpoint, and `L` for a labeled source node; a
labeled destination contributes nothing (no destination-label term appears). -/
theorem C5_reward (arr : List Expr) (qg : QueryGraph) (f : List String)
    (b : Option (List String)) :
    reward_arrangement arr qg f b =
      (arr.enum.map (fun p =>
        (match b with
         | some bv =>
           (if p.2.source ∈ bv then B * ((arr.length - p.1 : Nat) : Int) else 0) +
           (if p.2.destination ∈ bv then B * ((arr.length - p.1 : Nat) : Int) else 0)
         | none => 0) +
        (if p.2.source ∈ f then F * ((arr.length - p.1 : Nat) : Int) else 0) +
        (if p.2.destination ∈ f then F * ((arr.length - p.1 : Nat) : Int) else 0) +
        (if (qg.nodeLabel p.2.source).isSome = true
          then L * ((arr.length - p.1 : Nat) : Int) else 0))).sum := by
  rw [reward_arrangement, show arr.enum = arr.enumFrom 0 from rfl]
  exact reward_loop_enumFrom qg f b arr.length arr 0

/-- The `i ≥ 1` penalty terms as the claim states them: when some predecessor's
source or destination equals the expression's source, `T · transpose_count`;
otherwise `T · (operand_count - transpose_count)` in exact integer
arithmetic. -/
def claimPenaltyTail (prev : List Expr) : List Expr → Int
  | [] => 0
  | e :: rest =>
    (if ∃ q ∈ prev, q.source = e.source ∨ q.destination = e.source
      then T * (e.transposeCount : Int)
      else T * ((e.operandCount : Int) - (e.transposeCount : Int))) +
    claimPenaltyTail (prev ++ [e]) rest

theorem penalty_loop_eq_claim : ∀ (l prev : List Expr),
    (∀ x ∈ l, x.transposeCount ≤ x.operandCount ∧ x.operandCount < 4294967296) →
    penalty_loop prev l = claimPenaltyTail prev l := by
  intro l
  induction l with
  | nil => intro prev _; rfl
  | cons e t ih =>
    intro prev hwf
    have he := hwf e (by simp)
    have ht : ∀ x ∈ t, x.transposeCount ≤ x.operandCount ∧ x.operandCount < 4294967296 :=
      fun x hx => hwf x (by simp [hx])
    simp only [penalty_loop, claimPenaltyTail]
    rw [ih (prev ++ [e]) ht]
    congr 1
    have hiff : srcResolved prev e = true ↔
        ∃ q ∈ prev, q.source = e.source ∨ q.destination = e.source := by
      simp [srcResolved, List.any_eq_true]
    by_cases h : srcResolved prev e = true
    · rw [if_pos h, if_pos (hiff.mp h)]
      ring
    · rw [if_neg h, if_neg (fun hc => h (hiff.mpr hc))]
      have husub : usub32 e.operandCount e.transposeCount =
          e.operandCount - e.transposeCount := by
        unfold usub32
        omega
      rw [husub, Nat.cast_sub he.1]
      ring

/-- C6: with `maintain_transpose = true` the penalty is 0 and the score of
every arrangement reduces to its reward; with the flag off, the penalty is
`T · transpose_count(e0)` for the opener plus, for each later expression,
`T · transpose_count` when its source is resolved by a predecessor
(source-side only) and `T · (operand_count - transpose_count)` when not
(stated under the well-formedness bounds that make the C's unsigned
subtraction exact). -/
theorem C6_penalty (arr : List Expr) (qg : QueryGraph) (f : List String)
    (b : Option (List String)) :
    penalty_arrangement arr true = 0 ∧
    score_arrangement arr qg f b true = reward_arrangement arr qg f b ∧
    (∀ (e0 : Expr) (rest : List Expr), arr = e0 :: rest →
      (∀ x ∈ arr, x.transposeCount ≤ x.operandCount ∧ x.operandCount < 4294967296) →
      penalty_arrangement arr false =
        T * (e0.transposeCount : Int) + claimPenaltyTail [e0] rest) := by
  refine ⟨rfl, ?_, ?_⟩
  · simp [score_arrangement, penalty_arrangement]
  · rintro e0 rest rfl hwf
    have hwf' : ∀ x ∈ rest, x.transposeCount ≤ x.operandCount ∧ x.operandCount < 4294967296 :=
      fun x hx => hwf x (by simp [hx])
    have hbody : penalty_arrangement (e0 :: rest) false =
        (e0.transposeCount : Int) * T + penalty_loop [e0] rest := by
      simp [penalty_arrangement]
    rw [hbody, penalty_loop_eq_claim rest [e0] hwf']
    ring

/-- C7: when the input is a single single-operand self-loop expression,
`orderExpressions` returns it untouched — the output is the input array with
the expression neither transposed nor otherwise mutated. -/
theorem C7_fast_path (qg : QueryGraph) (e : Expr) (f : List String)
    (b : Option (List String)) (mt : Bool) (h1 : e.operandCount = 1)
    (h2 : e.source = e.destination) :
    orderExpressions qg [e] f b mt = [e] := by
  rw [orderExpressions_single, if_pos]
  simp [h1, h2]

/-- C9: an expression whose source alias equals its destination alias is
rewarded twice through that one alias — `2·B·factor` when the alias is in the
supplied bound-variable set and `2·F·factor` when it is in the filtered-alias
set — because the source-side and destination-side lookups both hit it. -/
theorem C9_self_loop_double_reward (e : Expr) (qg : QueryGraph) (f : List String)
    (bv : List String) (factor : Nat) (h : e.source = e.destination) :
    reward_expression e qg f (some bv) factor =
      (if e.source ∈ bv then 2 * B * (factor : Int) else 0) +
      (if e.source ∈ f then 2 * F * (factor : Int) else 0) +
      (if (qg.nodeLabel e.source).isSome = true then L * (factor : Int) else 0) := by
  unfold reward_expression
  dsimp only
  rw [← h]
  by_cases hb : e.source ∈ bv <;> by_cases hf : e.source ∈ f <;>
    simp [hb, hf, (contains_iff_mem bv e.source), (contains_iff_mem f e.source)] <;> ring

/-- C10: the conditional variable-length traverse operator is constructed with
traversal direction BOTH iff the traversed edge is bidirectional; on a
non-bidirectional edge the direction is INCOMING iff the algebraic expression
is transposed and OUTGOING iff it is not. -/
theorem C10_traverse_direction (ae : Expr) (e : QGEdge) :
    ((NewCondVarLenTraverseOp ae e).traverseDir = GraphEdgeDir.both ↔
      e.bidirectional = true) ∧
    (e.bidirectional = false →
      (((NewCondVarLenTraverseOp ae e).traverseDir = GraphEdgeDir.incoming ↔
          ae.transposed = true) ∧
       ((NewCondVarLenTraverseOp ae e).traverseDir = GraphEdgeDir.outgoing ↔
          ae.transposed = false))) := by
  cases e with
  | mk bd =>
    cases bd <;> cases hb : ae.transposed <;>
      simp [NewCondVarLenTraverseOp, setTraverseDirection, Expr.isTransposedForm, hb]

theorem select_entry_heuristic_idem (qg : QueryGraph) (e : Expr) (f : List String) :
    select_entry_heuristic qg (select_entry_heuristic qg e f) f =
      select_entry_heuristic qg e f := by
  unfold select_entry_heuristic
  dsimp only
  by_cases h : ((if f.contains e.source then F else 0) +
      (if (qg.nodeLabel e.source).isSome then L else 0) <
      (if f.contains e.destination then F else 0) +
      (if (qg.nodeLabel e.destination).isSome then L else 0))
  · rw [if_pos h]
    have h2 : ¬ ((if f.contains e.transpose.source then F else 0) +
        (if (qg.nodeLabel e.transpose.source).isSome then L else 0) <
        (if f.contains e.transpose.destination then F else 0) +
        (if (qg.nodeLabel e.transpose.destination).isSome then L else 0)) := by
      simp only [Expr.transpose]
      exact lt_asymm h
    rw [if_neg h2]
  · rw [if_neg h, if_neg h]

theorem select_entry_point_idem (qg : QueryGraph) (e : Expr) (f : List String)
    (b : Option (List String)) :
    select_entry_point qg (select_entry_point qg e f b) f b =
      select_entry_point qg e f b := by
  by_cases hc0 : (e.operandCount == 1 && e.source == e.destination) = true
  · have h1 : select_entry_point qg e f b = e := by
      unfold select_entry_point
      rw [if_pos hc0]
    rw [h1, h1]
  · have hc0t : ¬ ((e.transpose.operandCount == 1 &&
        e.transpose.source == e.transpose.destination) = true) := by
      simp only [Expr.transpose, Bool.and_eq_true, beq_iff_eq] at hc0 ⊢
      tauto
    cases b with
    | none =>
      have h1 : select_entry_point qg e f none = select_entry_heuristic qg e f := by
        unfold select_entry_point
        rw [if_neg hc0]
      rcases select_entry_heuristic_cases qg e f with hh | hh
      · rw [h1, hh, h1, hh]
      · rw [h1, hh]
        have h2 : select_entry_point qg e.transpose f none =
            select_entry_heuristic qg e.transpose f := by
          unfold select_entry_point
          rw [if_neg hc0t]
        rw [h2]
        have h3 := select_entry_heuristic_idem qg e f
        rw [hh] at h3
        exact h3
    | some bv =>
      by_cases hsrc : bv.contains e.source = true
      · have h1 : select_entry_point qg e f (some bv) = e := by
          unfold select_entry_point
          rw [if_neg hc0]
          dsimp only
          rw [if_pos hsrc]
        rw [h1, h1]
      · by_cases hdest : bv.contains e.destination = true
        · have h1 : select_entry_point qg e f (some bv) = e.transpose := by
            unfold select_entry_point
            rw [if_neg hc0]
            dsimp only
            rw [if_neg hsrc, if_pos hdest]
          rw [h1]
          have h2 : select_entry_point qg e.transpose f (some bv) = e.transpose := by
            unfold select_entry_point
            rw [if_neg hc0t]
            dsimp only
            rw [if_pos (show bv.contains e.transpose.source = true by
              simpa [Expr.transpose] using hdest)]
          exact h2
        · have h1 : select_entry_point qg e f (some bv) = select_entry_heuristic qg e f := by
            unfold select_entry_point
            rw [if_neg hc0]
            dsimp only
            rw [if_neg hsrc, if_neg hdest]
          rcases select_entry_heuristic_cases qg e f with hh | hh
          · rw [h1, hh, h1, hh]
          · rw [h1, hh]
            have h2 : select_entry_point qg e.transpose f (some bv) =
                select_entry_heuristic qg e.transpose f := by
              unfold select_entry_point
              rw [if_neg hc0t]
              dsimp only
              rw [if_neg (show ¬ bv.contains e.transpose.source = true by
                    simpa [Expr.transpose] using hdest),
                  if_neg (show ¬ bv.contains e.transpose.destination = true by
                    simpa [Expr.transpose] using hsrc)]
            rw [h2]
            have h3 := select_entry_heuristic_idem qg e f
            rw [hh] at h3
            exact h3

/-- C8 is false as stated: on the two-expression input `a→b, a→c` with node `a`
labeled and aliases `b, c` filtered, the first run transposes the opener to
`b→a` (the filter outweighs the label), after which the second run strictly
prefers the reversed order — position 1 of the second output differs from
position 1 of the first, so the claimed "no reordering on the second run"
fails. -/
theorem C8_counterexample :
    ¬ ((orderExpressions ⟨fun a => if a = "a" then some "L0" else none⟩
          (orderExpressions ⟨fun a => if a = "a" then some "L0" else none⟩
            [⟨"a", "b", none, 1, 0, false, 0⟩, ⟨"a", "c", none, 1, 0, false, 1⟩]
            ["b", "c"] none true)
          ["b", "c"] none true).drop 1 =
        (orderExpressions ⟨fun a => if a = "a" then some "L0" else none⟩
          [⟨"a", "b", none, 1, 0, false, 0⟩, ⟨"a", "c", none, 1, 0, false, 1⟩]
          ["b", "c"] none true).drop 1) := by
  decide

/-- C8 (amended): re-running `orderExpressions` is idempotent only in the
single-expression case, where the second run returns exactly the first run's
output (the entry-point selector is idempotent, so not even the permitted
one-transpose difference of the opener occurs); for `n ≥ 2` a second run may
genuinely reorder the array. -/
theorem C8_amended_single_idempotent (qg : QueryGraph) (e : Expr) (f : List String)
    (b : Option (List String)) (mt : Bool) :
    orderExpressions qg (orderExpressions qg [e] f b mt) f b mt =
      orderExpressions qg [e] f b mt := by
  rw [orderExpressions_single]
  by_cases hfast : (e.operandCount == 1 && e.source == e.destination) = true
  · rw [if_pos hfast, orderExpressions_single, if_pos hfast]
  · rw [if_neg hfast, orderExpressions_single]
    have hfast2 : ¬ ((select_entry_point qg e f b).operandCount == 1 &&
        (select_entry_point qg e f b).source ==
          (select_entry_point qg e f b).destination) = true := by
      rcases select_entry_point_cases qg e f b with h | h <;> rw [h]
      · exact hfast
      · simp only [Expr.transpose, Bool.and_eq_true, beq_iff_eq] at hfast ⊢
        tauto
    rw [if_neg hfast2, select_entry_point_idem]

/-! ### Concrete fixtures for witnesses -/

/-- A two-expression chain `a→b`, `b→c`. -/
def wExps : List Expr :=
  [⟨"a", "b", none, 2, 0, false, 0⟩, ⟨"b", "c", none, 2, 1, false, 1⟩]

/-- A query graph labeling node `a` only. -/
def wQG : QueryGraph := ⟨fun a => if a = "a" then some "L0" else none⟩

/-- A single-operand self-loop expression. -/
def wSelf : Expr := ⟨"a", "a", some "r", 1, 0, false, 0⟩

theorem C1_chaining_witness :
    ∃ j, ∃ hj : j < (orderExpressions wQG wExps [] none true).length, j < 1 ∧
      (((orderExpressions wQG wExps [] none true).get ⟨j, hj⟩).source =
          ((orderExpressions wQG wExps [] none true).get ⟨1, by decide⟩).source ∨
       ((orderExpressions wQG wExps [] none true).get ⟨j, hj⟩).destination =
          ((orderExpressions wQG wExps [] none true).get ⟨1, by decide⟩).source) :=
  C1_chaining wQG wExps [] none true (by decide) (by decide) 1 (by decide) (by decide)

theorem C2_same_multiset_witness :
    (orderExpressions wQG wExps [] none true).length = wExps.length ∧
      ((orderExpressions wQG wExps [] none true).map Expr.eid).Perm (wExps.map Expr.eid) :=
  C2_same_multiset wQG wExps [] none true (by decide) (by decide)

theorem C3_validity_filter_witness : valid_arrangement wExps wQG = true :=
  (C3_validity_filter wQG wExps (by decide)).mpr (by
    refine ⟨?_, by decide⟩
    intro i hi hpos
    have h1 : i = 1 := by
      have h2 : i < 2 := by simpa [wExps] using hi
      omega
    subst h1
    refine ⟨0, by decide, by decide, ?_⟩
    simp [wExps])

theorem C4_entry_point_witness :
    select_entry_point wQG ⟨"a", "b", none, 2, 0, false, 0⟩ [] (some ["b"]) =
      (⟨"a", "b", none, 2, 0, false, 0⟩ : Expr).transpose :=
  (C4_entry_point wQG ⟨"a", "b", none, 2, 0, false, 0⟩ [] (some ["b"])).2.2.1 ["b"]
    rfl (by decide) (by decide) (by decide)

theorem C6_penalty_witness :
    penalty_arrangement wExps false =
      T * (((⟨"a", "b", none, 2, 0, false, 0⟩ : Expr).transposeCount : Nat) : Int) +
        claimPenaltyTail [⟨"a", "b", none, 2, 0, false, 0⟩]
          [⟨"b", "c", none, 2, 1, false, 1⟩] :=
  (C6_penalty wExps wQG [] none).2.2 ⟨"a", "b", none, 2, 0, false, 0⟩
    [⟨"b", "c", none, 2, 1, false, 1⟩] rfl (by decide)

theorem C7_fast_path_witness :
    orderExpressions wQG [wSelf] [] none true = [wSelf] :=
  C7_fast_path wQG wSelf [] none true (by decide) (by decide)

theorem C9_self_loop_double_reward_witness :
    reward_expression wSelf wQG ["a"] (some ["a"]) 3 =
      (if wSelf.source ∈ ["a"] then 2 * B * ((3 : Nat) : Int) else 0) +
      (if wSelf.source ∈ ["a"] then 2 * F * ((3 : Nat) : Int) else 0) +
      (if (wQG.nodeLabel wSelf.source).isSome = true then L * ((3 : Nat) : Int) else 0) :=
  C9_self_loop_double_reward wSelf wQG ["a"] ["a"] 3 (by decide)

theorem C10_traverse_direction_witness :
    (NewCondVarLenTraverseOp ⟨"a", "b", some "r", 1, 0, true, 0⟩ ⟨false⟩).traverseDir =
      GraphEdgeDir.incoming :=
  ((C10_traverse_direction ⟨"a", "b", some "r", 1, 0, true, 0⟩ ⟨false⟩).2 rfl).1.mpr rfl

end TraverseOrder
